import Mathlib

/-!
Verification of the NectarCoder/optimized-bloom-filter C implementation
(src/c_impl) against its natural-language specification.

The C code is shallowly embedded: machine integers become `Nat` with
explicit reductions modulo `2^32` / `2^64` where the C arithmetic wraps,
byte strings (`const char *` keys) become `List Nat` of byte values,
heap buffers become `Option (List Nat)` (`none` models a NULL pointer),
and every memory access is modelled as a checked access whose failure
(`none` result of an operation) marks undefined behavior in the C code
(NULL dereference or out-of-bounds access).  Allocation success of
`calloc` is an environment choice and is passed in as a `Bool` oracle.
-/

/-- 2^32, the modulus of C `uint32_t` arithmetic. -/
def U32 : Nat := 4294967296

/-- 2^64, the modulus of C `uint64_t` / 64-bit `size_t` arithmetic. -/
def U64 : Nat := 18446744073709551616

/-- SIZE_MAX on the modelled LP64 platform. -/
def SIZE_MAX : Nat := U64 - 1

/-- 32-bit rotate left, as the C idiom `(x << k) | (x >> (32 - k))` on
`uint32_t` (the left shift wraps modulo 2^32). -/
def rotl32 (x k : Nat) : Nat := ((x <<< k) % U32) ||| (x >>> (32 - k))

/-- 64-bit rotate left, as the C idiom `(x << k) | (x >> (64 - k))` on
`uint64_t`. -/
def rotl64 (x k : Nat) : Nat := ((x <<< k) % U64) ||| (x >>> (64 - k))

/-- Little-endian load of a 4-byte lane (the `memcpy` into a `uint32_t`
in hash_utils.c; the modelled platform is little-endian). -/
def le32 (b0 b1 b2 b3 : Nat) : Nat := b0 + 256 * (b1 + 256 * (b2 + 256 * b3))

/-- Little-endian load of an 8-byte lane (the `memcpy` into a `uint64_t`). -/
def le64 (b0 b1 b2 b3 b4 b5 b6 b7 : Nat) : Nat :=
  b0 + 256 * (b1 + 256 * (b2 + 256 * (b3 + 256 * (b4 + 256 * (b5 + 256 * (b6 + 256 * b7))))))

/-- Main block loop of `murmur3_32` (src/c_impl/hash_utils.c lines 11-23):
consumes 4-byte lanes while at least 4 bytes remain, returning the updated
`h1` and the ≤ 3 remaining tail bytes. -/
def murmur3_32_blocks (h1 : Nat) : List Nat → Nat × List Nat
  | b0 :: b1 :: b2 :: b3 :: rest =>
      let k1 := le32 b0 b1 b2 b3
      let k1 := k1 * 0xcc9e2d51 % U32
      let k1 := rotl32 k1 15
      let k1 := k1 * 0x1b873593 % U32
      let h := h1 ^^^ k1
      let h := rotl32 h 13
      let h := (h * 5 + 0xe6546b64) % U32
      murmur3_32_blocks h rest
  | rest => (h1, rest)

/-- Final avalanche of `murmur3_32` (src/c_impl/hash_utils.c lines 46-50). -/
def fmix32 (h : Nat) : Nat :=
  let h := h ^^^ (h >>> 16)
  let h := h * 0x85ebca6b % U32
  let h := h ^^^ (h >>> 13)
  let h := h * 0xc2b2ae35 % U32
  h ^^^ (h >>> 16)

/-- `murmur3_32` from src/c_impl/hash_utils.c: block loop, tail switch on
`len & 3`, length mix, final avalanche. -/
def murmur3_32 (data : List Nat) (seed : Nat) : Nat :=
  let len := data.length
  let bl := murmur3_32_blocks seed data
  let h1 := bl.1
  let k1 : Nat :=
    match bl.2 with
    | t0 :: t1 :: t2 :: _ => ((t2 <<< 16) ^^^ (t1 <<< 8)) ^^^ t0
    | t0 :: t1 :: _ => (t1 <<< 8) ^^^ t0
    | t0 :: _ => t0
    | [] => 0
  let h1 :=
    match bl.2 with
    | [] => h1
    | _ =>
      let k := k1 * 0xcc9e2d51 % U32
      let k := rotl32 k 15
      let k := k * 0x1b873593 % U32
      h1 ^^^ k
  let h1 := h1 ^^^ (len % U32)
  fmix32 h1

/-- xxHash64 primes (src/c_impl/hash_utils.c lines 56-60). -/
def XXPRIME1 : Nat := 11400714785074694791

def XXPRIME2 : Nat := 14029467366897019727

def XXPRIME3 : Nat := 1609587929392839161

def XXPRIME4 : Nat := 9650029242287828579

def XXPRIME5 : Nat := 2870177450012600261

/-- One accumulator round of xxhash64: `v += lane * prime2; v = rotl31 v;
v *= prime1` on `uint64_t`. -/
def xxh_round (acc lane : Nat) : Nat :=
  rotl64 ((acc + lane * XXPRIME2 % U64) % U64) 31 * XXPRIME1 % U64

/-- Main stripe loop of xxhash64 (src/c_impl/hash_utils.c lines 71-99):
consumes 32-byte stripes (four 8-byte lanes) while at least 32 bytes
remain. -/
def xxh_stripes (v1 v2 v3 v4 : Nat) :
    List Nat → (Nat × Nat × Nat × Nat) × List Nat
  | a0 :: a1 :: a2 :: a3 :: a4 :: a5 :: a6 :: a7 ::
    b0 :: b1 :: b2 :: b3 :: b4 :: b5 :: b6 :: b7 ::
    c0 :: c1 :: c2 :: c3 :: c4 :: c5 :: c6 :: c7 ::
    d0 :: d1 :: d2 :: d3 :: d4 :: d5 :: d6 :: d7 :: rest =>
      xxh_stripes
        (xxh_round v1 (le64 a0 a1 a2 a3 a4 a5 a6 a7))
        (xxh_round v2 (le64 b0 b1 b2 b3 b4 b5 b6 b7))
        (xxh_round v3 (le64 c0 c1 c2 c3 c4 c5 c6 c7))
        (xxh_round v4 (le64 d0 d1 d2 d3 d4 d5 d6 d7)) rest
  | rest => ((v1, v2, v3, v4), rest)

/-- Accumulator fold-in of xxhash64 (src/c_impl/hash_utils.c lines 104-126):
`v *= prime2; v = rotl31 v; v *= prime1; h ^= v; h = h * prime1 + prime4`. -/
def xxh_mergeRound (h v : Nat) : Nat :=
  let v := v * XXPRIME2 % U64
  let v := rotl64 v 31
  let v := v * XXPRIME1 % U64
  let h := h ^^^ v
  (h * XXPRIME1 % U64 + XXPRIME4) % U64

/-- 8-byte tail loop of xxhash64 (src/c_impl/hash_utils.c lines 133-143). -/
def xxh_tail8 (h : Nat) : List Nat → Nat × List Nat
  | b0 :: b1 :: b2 :: b3 :: b4 :: b5 :: b6 :: b7 :: rest =>
      let k1 := le64 b0 b1 b2 b3 b4 b5 b6 b7
      let k1 := k1 * XXPRIME2 % U64
      let k1 := rotl64 k1 31
      let k1 := k1 * XXPRIME1 % U64
      let h := h ^^^ k1
      let h := rotl64 h 27
      let h := (h * XXPRIME1 % U64 + XXPRIME4) % U64
      xxh_tail8 h rest
  | rest => (h, rest)

/-- 1-byte tail loop of xxhash64 (src/c_impl/hash_utils.c lines 157-165). -/
def xxh_tail1 (h : Nat) : List Nat → Nat
  | [] => h
  | b :: rest =>
      let k1 := b * XXPRIME5 % U64
      let k1 := rotl64 k1 11
      let k1 := k1 * XXPRIME1 % U64
      let h := h ^^^ k1
      let h := rotl64 h 11
      let h := (h * XXPRIME1 % U64 + XXPRIME4) % U64
      xxh_tail1 h rest

/-- Final avalanche of xxhash64 (src/c_impl/hash_utils.c lines 167-171). -/
def xxh_avalanche (h : Nat) : Nat :=
  let h := h ^^^ (h >>> 33)
  let h := h * XXPRIME2 % U64
  let h := h ^^^ (h >>> 29)
  let h := h * XXPRIME3 % U64
  h ^^^ (h >>> 32)

/-- `xxhash64` from src/c_impl/hash_utils.c: for inputs of at least 32
bytes, four seeded accumulators over 32-byte stripes merged by
rotate-and-add plus four fold-ins; otherwise the accumulator starts at
`seed + prime5`; then length mix, 8-byte / 4-byte / 1-byte tails and the
final avalanche.  (`v4 = seed - prime1` is `uint64_t` subtraction.) -/
def xxhash64 (data : List Nat) (seed : Nat) : Nat :=
  let len := data.length
  let startPair : Nat × List Nat :=
    if 32 ≤ len then
      let v1 := (seed + XXPRIME1 + XXPRIME2) % U64
      let v2 := (seed + XXPRIME2) % U64
      let v3 := seed % U64
      let v4 := (seed + U64 - XXPRIME1) % U64
      let sr := xxh_stripes v1 v2 v3 v4 data
      let v1 := sr.1.1
      let v2 := sr.1.2.1
      let v3 := sr.1.2.2.1
      let v4 := sr.1.2.2.2
      let h := (rotl64 v1 1 + rotl64 v2 7 + rotl64 v3 12 + rotl64 v4 18) % U64
      let h := xxh_mergeRound h v1
      let h := xxh_mergeRound h v2
      let h := xxh_mergeRound h v3
      let h := xxh_mergeRound h v4
      (h, sr.2)
    else ((seed + XXPRIME5) % U64, data)
  let h := (startPair.1 + len) % U64
  let t8 := xxh_tail8 h startPair.2
  let h := t8.1
  let t4 : Nat × List Nat :=
    match t8.2 with
    | b0 :: b1 :: b2 :: b3 :: rest =>
        let k1 := le32 b0 b1 b2 b3
        let k1 := k1 * XXPRIME1 % U64
        let k1 := rotl64 k1 23
        let k1 := k1 * XXPRIME2 % U64
        let h := h ^^^ k1
        ((h * XXPRIME1 % U64 + XXPRIME4) % U64, rest)
    | rest => (h, rest)
  xxh_avalanche (xxh_tail1 t4.1 t4.2)

/-- Modelled from the spec: bloom_filter.c calls `murmurhash` from the
vendored murmurhash.c library, which is not under src/.  Spec section 4.1
specifies the primary hash as a Murmur3-style 32-bit avalanche hash with
exactly the block/tail/finalizer structure that src/c_impl/hash_utils.c
implements as `murmur3_32`, so that in-repo implementation stands in for
the vendored function. -/
def murmurhash (data : List Nat) (seed : Nat) : Nat := murmur3_32 data seed

/-- Modelled from the spec: bloom_filter.c and lightweight_bloom_filter.c
call `XXH64` from the vendored xxHash library, which is not under src/.
Spec section 4.1 specifies the 64-bit hash as an xxHash64-style hash with
exactly the structure that src/c_impl/hash_utils.c implements as
`xxhash64`, so that in-repo implementation stands in for the vendored
function. -/
def XXH64 (data : List Nat) (seed : Nat) : Nat := xxhash64 data seed

/-- `splitmix64_next` from src/c_impl/lightweight_bloom_filter.c lines
134-145: advances the state by the SplitMix64 gamma and returns the
avalanched draw together with the new state. -/
def splitmix64_next (state : Nat) : Nat × Nat :=
  let st := (state + 0x9E3779B97F4A7C15) % U64
  let x := st
  let x := (x ^^^ (x >>> 30)) * 0xBF58476D1CE4E5B9 % U64
  let x := (x ^^^ (x >>> 27)) * 0x94D049BB133111EB % U64
  let x := x ^^^ (x >>> 31)
  (x, st)

/-- `BloomFilter` struct from src/c_impl/bloom_filter.h.  `bit_array` is
`none` when the C pointer is NULL. -/
structure BloomFilter where
  size_bits : Nat
  num_hashes : Nat
  seed1 : Nat
  seed2 : Nat
  bit_array : Option (List Nat)
  byte_length : Nat
deriving DecidableEq, Repr

/-- The all-zero `BloomFilter` struct: the state before initialization
(zero-valued) and after `bloom_free` (`memset` to 0, `bit_array = NULL`). -/
def bloomZero : BloomFilter :=
  { size_bits := 0, num_hashes := 0, seed1 := 0, seed2 := 0,
    bit_array := none, byte_length := 0 }

/-- `bloom_compute_hashes` (src/c_impl/bloom_filter.c lines 20-40):
guards against an invalid filter, then computes the Murmur3 primary hash
and the xxHash64-derived stride reduced modulo `size_bits`, clamping a
zero stride to 1.  (The `!filter || !item || !h1 || !h2` NULL-pointer part
of the guard has no counterpart here because the embedding passes values;
the `size_bits == 0 || bit_array == NULL` part is the one reachable on
filter states of the lifecycle.) -/
def bloom_compute_hashes (filter : BloomFilter) (item : List Nat) :
    Option (Nat × Nat) :=
  if filter.size_bits = 0 ∨ filter.bit_array = none then none
  else
    let primary := murmurhash item filter.seed1
    let secondary := XXH64 item filter.seed2 % filter.size_bits
    some (primary, if secondary = 0 then 1 else secondary)

/-- Probe index of the i-th double-hashing step in `bloom_add` /
`bloom_contains`: the C expression `(h1 + i * h2) % filter->size_bits`
where `h1 + i * h2` is computed in `uint64_t`, hence modulo 2^64. -/
def bloomProbe (size_bits h1 h2 i : Nat) : Nat :=
  (h1 + i * h2) % U64 % size_bits

/-- The list of probe indices of one `bloom_add` / `bloom_contains` call,
for `i` in `0 .. num_hashes`. -/
def bloomProbes (size_bits num_hashes h1 h2 : Nat) : List Nat :=
  (List.range num_hashes).map (bloomProbe size_bits h1 h2)

/-- `bloom_set_bit` (src/c_impl/bloom_filter.c lines 10-13) iterated over
a list of bit indices, with the array access checked: the C
`array[bit_index >> 3] |= 1 << (bit_index & 7)` reads and writes byte
`bit_index >> 3`; an out-of-bounds access is undefined behavior, modelled
as `none`. -/
def bloomSetBits (array : List Nat) : List Nat → Option (List Nat)
  | [] => some array
  | bi :: rest =>
    match array[bi >>> 3]? with
    | none => none
    | some byte => bloomSetBits (array.set (bi >>> 3) (byte ||| (1 <<< (bi &&& 7)))) rest

/-- `bloom_bit_is_set` (src/c_impl/bloom_filter.c lines 15-18) iterated
over a list of bit indices as in the `bloom_contains` loop: stops with
`false` at the first clear bit; an out-of-bounds read is undefined
behavior, modelled as `none`. -/
def bloomCheckBits (array : List Nat) : List Nat → Option Bool
  | [] => some true
  | bi :: rest =>
    match array[bi >>> 3]? with
    | none => none
    | some byte =>
      if (byte &&& (1 <<< (bi &&& 7))) ≠ 0 then bloomCheckBits array rest
      else some false

/-- `bloom_init` (src/c_impl/bloom_filter.c lines 42-76).  `alloc_ok`
is the oracle for whether `calloc` succeeds; `filter` is the struct the
caller passes by pointer; the result is the returned `bool` paired with
the struct's state after the call.  Note the source zeroes every field
of the struct before calling `calloc`. -/
def bloom_init (alloc_ok : Bool) (filter : BloomFilter)
    (size_bits num_hashes seed1 seed2 : Nat) : Bool × BloomFilter :=
  if size_bits < 1 ∨ num_hashes = 0 then (false, filter)
  else if SIZE_MAX - 7 < size_bits then (false, filter)
  else
    let byte_length := (size_bits + 7) % U64 / 8
    let filter : BloomFilter :=
      { size_bits := 0, num_hashes := 0, seed1 := 0, seed2 := 0,
        bit_array := none, byte_length := 0 }
    if alloc_ok = false then (false, filter)
    else
      (true,
       { size_bits := size_bits, num_hashes := num_hashes, seed1 := seed1,
         seed2 := seed2, bit_array := some (List.replicate byte_length 0),
         byte_length := byte_length })

/-- `bloom_free` (src/c_impl/bloom_filter.c lines 78-87): frees the
buffer and `memset`s the struct to zero. -/
def bloom_free (_filter : BloomFilter) : BloomFilter := bloomZero

/-- `bloom_add` (src/c_impl/bloom_filter.c lines 89-104): silent no-op
when `bloom_compute_hashes` rejects the input, otherwise sets the
`num_hashes` double-hashing probe bits.  `none` models undefined
behavior (an out-of-bounds `bloom_set_bit`). -/
def bloom_add (filter : BloomFilter) (item : List Nat) : Option BloomFilter :=
  match bloom_compute_hashes filter item with
  | none => some filter
  | some (h1, h2) =>
    match filter.bit_array with
    | none => some filter
    | some array =>
      match bloomSetBits array (bloomProbes filter.size_bits filter.num_hashes h1 h2) with
      | none => none
      | some array2 => some { filter with bit_array := some array2 }

/-- `bloom_contains` (src/c_impl/bloom_filter.c lines 106-126): `false`
when `bloom_compute_hashes` rejects the input, otherwise `true` iff all
`num_hashes` probe bits are set.  `none` models undefined behavior. -/
def bloom_contains (filter : BloomFilter) (item : List Nat) : Option Bool :=
  match bloom_compute_hashes filter item with
  | none => some false
  | some (h1, h2) =>
    match filter.bit_array with
    | none => some false
    | some array =>
      bloomCheckBits array (bloomProbes filter.size_bits filter.num_hashes h1 h2)

/-- A sequence of `bloom_add` calls, propagating undefined behavior. -/
def bloom_addAll (filter : BloomFilter) : List (List Nat) → Option BloomFilter
  | [] => some filter
  | item :: rest =>
    match bloom_add filter item with
    | none => none
    | some filter2 => bloom_addAll filter2 rest

/-- `LightweightBloomFilter` struct from
src/c_impl/lightweight_bloom_filter.h.  `bit_array` is `none` when the C
pointer is NULL. -/
structure LightweightBloomFilter where
  size_bits : Nat
  num_hashes : Nat
  seed : Nat
  word_count : Nat
  word_mask : Nat
  block_bits : Nat
  bit_array : Option (List Nat)
deriving DecidableEq, Repr

/-- The all-zero `LightweightBloomFilter` struct: the state before
initialization and after `lbf_free`. -/
def lbfZero : LightweightBloomFilter :=
  { size_bits := 0, num_hashes := 0, seed := 0, word_count := 0,
    word_mask := 0, block_bits := 0, bit_array := none }

/-- `next_power_of_two` (src/c_impl/lightweight_bloom_filter.c lines
107-123): bit-smearing on `size_t`, with the 64-bit platform's
`value >> 32` step; the final `value + 1` is `size_t` arithmetic. -/
def next_power_of_two (value : Nat) : Nat :=
  if value ≤ 1 then 1
  else
    let v := value - 1
    let v := v ||| (v >>> 1)
    let v := v ||| (v >>> 2)
    let v := v ||| (v >>> 4)
    let v := v ||| (v >>> 8)
    let v := v ||| (v >>> 16)
    let v := v ||| (v >>> 32)
    (v + 1) % U64

/-- `block_index_from_hash` (src/c_impl/lightweight_bloom_filter.c lines
125-132). -/
def block_index_from_hash (digest : Nat) (block_bits : Nat) (mask : Nat) : Nat :=
  if block_bits = 0 then 0
  else (digest >>> (64 - block_bits)) &&& mask

/-- Body of the `while (tmp > 1) { ++bits; tmp >>= 1; }` loop of
`lbf_init` (src/c_impl/lightweight_bloom_filter.c lines 38-44), with a
structural fuel argument so the kernel can evaluate it; since `tmp`
halves each iteration, any fuel of at least `tmp` is enough. -/
def lbf_count_bits_aux : Nat → Nat → Nat
  | 0, _ => 0
  | fuel + 1, tmp => if 1 < tmp then lbf_count_bits_aux fuel (tmp >>> 1) + 1 else 0

/-- The bit-count loop of `lbf_init`, run with sufficient fuel. -/
def lbf_count_bits (tmp : Nat) : Nat := lbf_count_bits_aux tmp tmp

/-- `lbf_init` (src/c_impl/lightweight_bloom_filter.c lines 13-48).
`alloc_ok` is the `calloc` oracle; the `size_t` additions and
multiplications wrap modulo 2^64 (there is no overflow guard in this
init, unlike `bloom_init`). -/
def lbf_init (alloc_ok : Bool) (filter : LightweightBloomFilter)
    (size_bits num_hashes seed : Nat) : Bool × LightweightBloomFilter :=
  if size_bits < 1 ∨ num_hashes = 0 then (false, filter)
  else
    let requested_words := (size_bits + 63) % U64 / 64
    let requested_words := if requested_words = 0 then 1 else requested_words
    let word_count := next_power_of_two requested_words
    if alloc_ok = false then (false, filter)
    else
      (true,
       { size_bits := word_count * 64 % U64, num_hashes := num_hashes,
         seed := seed, word_count := word_count, word_mask := word_count - 1,
         block_bits := lbf_count_bits word_count,
         bit_array := some (List.replicate word_count 0) })

/-- `lbf_free` (src/c_impl/lightweight_bloom_filter.c lines 50-58). -/
def lbf_free (_filter : LightweightBloomFilter) : LightweightBloomFilter := lbfZero

/-- The sequence of in-word bit positions drawn by one `lbf_add` /
`lbf_contains` call: `num_hashes` SplitMix64 draws from state `digest`,
each masked to its low 6 bits (`& 63`). -/
def lbf_bits (state : Nat) : Nat → List Nat
  | 0 => []
  | n + 1 =>
    let d := splitmix64_next state
    (d.1 &&& 63) :: lbf_bits d.2 n

/-- The `word |= 1 << bit_pos` loop body of `lbf_add` folded over the
drawn bit positions. -/
def lbf_word_or (word : Nat) (bits : List Nat) : Nat :=
  bits.foldl (fun w b => w ||| (1 <<< b)) word

/-- The `(word & (1 << bit_pos)) == 0` early-exit loop of `lbf_contains`
over the drawn bit positions. -/
def lbf_check (word : Nat) (bits : List Nat) : Bool :=
  bits.all fun b => decide ((word &&& (1 <<< b)) ≠ 0)

/-- `lbf_add` (src/c_impl/lightweight_bloom_filter.c lines 60-80): hashes
the key, selects the block word, ORs `num_hashes` SplitMix64-drawn bits
into that word and writes it back.  The `filter->bit_array[block_index]`
access is NOT guarded by a NULL / bounds check in the source; `none`
models the undefined behavior of that access (NULL dereference or
out-of-bounds read). -/
def lbf_add (filter : LightweightBloomFilter) (item : List Nat) :
    Option LightweightBloomFilter :=
  let digest := XXH64 item filter.seed
  let block_index := block_index_from_hash digest filter.block_bits filter.word_mask
  match filter.bit_array with
  | none => none
  | some array =>
    match array[block_index]? with
    | none => none
    | some word =>
      some { filter with
             bit_array := some (array.set block_index
               (lbf_word_or word (lbf_bits digest filter.num_hashes))) }

/-- `lbf_contains` (src/c_impl/lightweight_bloom_filter.c lines 82-105):
same digest, block word and bit sequence as `lbf_add`; `true` iff all
drawn bits are set in that word.  As in `lbf_add`, the unguarded word
access makes `none` model undefined behavior. -/
def lbf_contains (filter : LightweightBloomFilter) (item : List Nat) :
    Option Bool :=
  let digest := XXH64 item filter.seed
  let block_index := block_index_from_hash digest filter.block_bits filter.word_mask
  match filter.bit_array with
  | none => none
  | some array =>
    match array[block_index]? with
    | none => none
    | some word => some (lbf_check word (lbf_bits digest filter.num_hashes))

/-- A sequence of `lbf_add` calls, propagating undefined behavior. -/
def lbf_addAll (filter : LightweightBloomFilter) : List (List Nat) → Option LightweightBloomFilter
  | [] => some filter
  | item :: rest =>
    match lbf_add filter item with
    | none => none
    | some filter2 => lbf_addAll filter2 rest

/-- The backing byte/word array of a filter value (only meaningful when
the pointer is non-NULL). -/
def bloomArray (f : BloomFilter) : List Nat := f.bit_array.getD []

/-- The backing word array of a blocked filter value. -/
def lbfArray (f : LightweightBloomFilter) : List Nat := f.bit_array.getD []

/-- Bit `bi & 7` of byte `bi >> 3`, exactly the addressing of
`bloom_set_bit` / `bloom_bit_is_set`. -/
def bitGet (array : List Nat) (bi : Nat) : Bool :=
  ((array[bi >>> 3]?).getD 0).testBit (bi &&& 7)

/-- Bitwise containment between two arrays of equal length: every set bit
of the first is set in the second. -/
structure bitsSub (a b : List Nat) : Prop where
  len : a.length = b.length
  bits : ∀ (i j : Nat), ((a[i]?).getD 0).testBit j = true →
    ((b[i]?).getD 0).testBit j = true

theorem bitsSub_refl (a : List Nat) : bitsSub a a := ⟨rfl, fun _ _ h => h⟩

theorem bitsSub_trans {a b c : List Nat} (h1 : bitsSub a b) (h2 : bitsSub b c) :
    bitsSub a c :=
  ⟨h1.len.trans h2.len, fun i j h => h2.bits i j (h1.bits i j h)⟩

/-- The C test `(byte & (1 << r)) != 0` decides exactly `testBit byte r`. -/
theorem and_shift_ne_zero (byte r : Nat) :
    (byte &&& (1 <<< r)) ≠ 0 ↔ byte.testBit r = true := by
  rw [Nat.shiftLeft_eq, one_mul, Nat.and_two_pow]
  cases h : byte.testBit r <;> simp [(Nat.two_pow_pos r).ne']

/-- ORing `1 << r` into a byte sets bit `r`. -/
theorem testBit_or_shift_self (byte r : Nat) :
    (byte ||| (1 <<< r)).testBit r = true := by
  rw [Nat.shiftLeft_eq, one_mul]
  simp [Nat.testBit_or, Nat.testBit_two_pow_self]

/-- ORing anything into a byte preserves set bits. -/
theorem testBit_or_of_testBit {byte j : Nat} (m : Nat)
    (h : byte.testBit j = true) : (byte ||| m).testBit j = true := by
  simp [Nat.testBit_or, h]

/-- Setting one (in-range) byte to an OR-extension of itself only grows
the bit content. -/
theorem bitsSub_set_or {arr : List Nat} {idx byte : Nat}
    (h : arr[idx]? = some byte) (m : Nat) :
    bitsSub arr (arr.set idx (byte ||| m)) := by
  have hlt : idx < arr.length := (List.getElem?_eq_some.mp h).1
  refine ⟨(List.length_set arr idx _).symm, fun i j hj => ?_⟩
  by_cases hij : idx = i
  · subst hij
    rw [List.getElem?_set_self hlt]
    rw [h] at hj
    exact testBit_or_of_testBit m hj
  · rwa [List.getElem?_set_ne hij]

theorem bloomSetBits_sub {L : List Nat} :
    ∀ {arr arr2 : List Nat}, bloomSetBits arr L = some arr2 → bitsSub arr arr2 := by
  induction L with
  | nil => intro arr arr2 h; simp only [bloomSetBits] at h; cases h; exact bitsSub_refl _
  | cons bi rest ih =>
    intro arr arr2 h
    simp only [bloomSetBits] at h
    cases hb : arr[bi >>> 3]? with
    | none => rw [hb] at h; cases h
    | some byte =>
      rw [hb] at h
      exact bitsSub_trans (bitsSub_set_or hb _) (ih h)

theorem bitGet_of_bitsSub {arr arr2 : List Nat} (h : bitsSub arr arr2) {bi : Nat}
    (hg : bitGet arr bi = true) : bitGet arr2 bi = true :=
  h.bits (bi >>> 3) (bi &&& 7) hg

theorem bloomSetBits_marks {L : List Nat} :
    ∀ {arr arr2 : List Nat}, bloomSetBits arr L = some arr2 →
      ∀ bi ∈ L, bitGet arr2 bi = true := by
  induction L with
  | nil => intro arr arr2 _ bi hbi; cases hbi
  | cons hd rest ih =>
    intro arr arr2 h bi hbi
    simp only [bloomSetBits] at h
    cases hb : arr[hd >>> 3]? with
    | none => rw [hb] at h; cases h
    | some byte =>
      rw [hb] at h
      rcases List.mem_cons.mp hbi with heq | hmem
      · subst heq
        have hlt : bi >>> 3 < arr.length := (List.getElem?_eq_some.mp hb).1
        have hset : bitGet (arr.set (bi >>> 3) (byte ||| (1 <<< (bi &&& 7)))) bi = true := by
          unfold bitGet
          rw [List.getElem?_set_self hlt]
          exact testBit_or_shift_self byte (bi &&& 7)
        exact bitGet_of_bitsSub (bloomSetBits_sub h) hset
      · exact ih h bi hmem

theorem bloomSetBits_isSome {L : List Nat} :
    ∀ {arr : List Nat}, (∀ bi ∈ L, bi >>> 3 < arr.length) →
      ∃ arr2, bloomSetBits arr L = some arr2 := by
  induction L with
  | nil => intro arr _; exact ⟨arr, rfl⟩
  | cons hd rest ih =>
    intro arr hin
    have hlt : hd >>> 3 < arr.length := hin hd (List.mem_cons_self hd rest)
    have hb : arr[hd >>> 3]? = some arr[hd >>> 3] := List.getElem?_eq_getElem hlt
    obtain ⟨arr2, h2⟩ := @ih (arr.set (hd >>> 3) (arr[hd >>> 3] ||| (1 <<< (hd &&& 7))))
      (fun bi hbi => by rw [List.length_set]; exact hin bi (List.mem_cons_of_mem hd hbi))
    refine ⟨arr2, ?_⟩
    simp only [bloomSetBits, hb]
    exact h2

theorem bloomCheckBits_true {L : List Nat} :
    ∀ {arr : List Nat}, (∀ bi ∈ L, bi >>> 3 < arr.length ∧ bitGet arr bi = true) →
      bloomCheckBits arr L = some true := by
  induction L with
  | nil => intro arr _; rfl
  | cons hd rest ih =>
    intro arr hin
    obtain ⟨hlt, hset⟩ := hin hd (List.mem_cons_self hd rest)
    have hb : arr[hd >>> 3]? = some arr[hd >>> 3] := List.getElem?_eq_getElem hlt
    have hbit : arr[hd >>> 3].testBit (hd &&& 7) = true := by
      unfold bitGet at hset
      rwa [hb] at hset
    simp only [bloomCheckBits, hb]
    rw [if_pos ((and_shift_ne_zero _ _).mpr hbit)]
    exact ih fun bi hbi => hin bi (List.mem_cons_of_mem hd hbi)

/-- The primary hash `h1` computed by `bloom_compute_hashes`. -/
def bloomHash1 (f : BloomFilter) (item : List Nat) : Nat :=
  murmurhash item f.seed1

/-- The clamped stride `h2` computed by `bloom_compute_hashes`. -/
def bloomHash2 (f : BloomFilter) (item : List Nat) : Nat :=
  if XXH64 item f.seed2 % f.size_bits = 0 then 1
  else XXH64 item f.seed2 % f.size_bits

/-- Well-formedness of a standard filter as established by a successful
`bloom_init`: positive size and hash count, an allocated array whose
length is `byte_length`, and `byte_length` covering `size_bits` bits. -/
structure bloomWf (f : BloomFilter) : Prop where
  sb_pos : f.size_bits ≠ 0
  k_pos : f.num_hashes ≠ 0
  arr_some : f.bit_array = some (bloomArray f)
  arr_len : (bloomArray f).length = f.byte_length
  bytes_enough : (f.size_bits + 7) / 8 ≤ f.byte_length

/-- Equality of all shape (non-array) fields of two standard filters. -/
structure bloomShape (f g : BloomFilter) : Prop where
  sb : g.size_bits = f.size_bits
  k : g.num_hashes = f.num_hashes
  s1 : g.seed1 = f.seed1
  s2 : g.seed2 = f.seed2
  bl : g.byte_length = f.byte_length

/-- One or more `bloom_add` steps: shape unchanged, bits only gained. -/
structure bloomEvolves (f g : BloomFilter) : Prop where
  shape : bloomShape f g
  sub : bitsSub (bloomArray f) (bloomArray g)

theorem bloomShape_refl (f : BloomFilter) : bloomShape f f :=
  ⟨rfl, rfl, rfl, rfl, rfl⟩

theorem bloomShape_trans {f g h : BloomFilter} (h1 : bloomShape f g)
    (h2 : bloomShape g h) : bloomShape f h :=
  ⟨h2.sb.trans h1.sb, h2.k.trans h1.k, h2.s1.trans h1.s1,
   h2.s2.trans h1.s2, h2.bl.trans h1.bl⟩

theorem bloomEvolves_refl (f : BloomFilter) : bloomEvolves f f :=
  ⟨bloomShape_refl f, bitsSub_refl _⟩

theorem bloomEvolves_trans {f g h : BloomFilter} (h1 : bloomEvolves f g)
    (h2 : bloomEvolves g h) : bloomEvolves f h :=
  ⟨bloomShape_trans h1.shape h2.shape, bitsSub_trans h1.sub h2.sub⟩

/-- On a well-formed filter the guard of `bloom_compute_hashes` passes and
the hash pair is `(bloomHash1, bloomHash2)`. -/
theorem bloom_compute_hashes_eq {f : BloomFilter} (hw : bloomWf f)
    (item : List Nat) :
    bloom_compute_hashes f item = some (bloomHash1 f item, bloomHash2 f item) := by
  have harr : ¬ f.bit_array = none := by rw [hw.arr_some]; simp
  simp only [bloom_compute_hashes, bloomHash1, bloomHash2]
  rw [if_neg (by push_neg; exact ⟨hw.sb_pos, harr⟩)]

theorem bloomProbe_lt {size_bits : Nat} (h : size_bits ≠ 0) (h1 h2 i : Nat) :
    bloomProbe size_bits h1 h2 i < size_bits :=
  Nat.mod_lt _ (Nat.pos_of_ne_zero h)

theorem bloomProbes_mem_lt {size_bits k h1 h2 bi : Nat} (hsb : size_bits ≠ 0)
    (h : bi ∈ bloomProbes size_bits k h1 h2) : bi < size_bits := by
  obtain ⟨i, _, rfl⟩ := List.mem_map.mp h
  exact bloomProbe_lt hsb h1 h2 i

/-- A bit index below `size_bits` addresses a byte below
`ceil(size_bits/8)`. -/
theorem byteIndex_lt {bi size_bits : Nat} (h : bi < size_bits) :
    bi >>> 3 < (size_bits + 7) / 8 := by
  rw [Nat.shiftRight_eq_div_pow]
  have : (2 : Nat) ^ 3 = 8 := by norm_num
  rw [this]
  omega

/-- What one successful `bloom_add` does on a well-formed filter: the
result is well-formed, evolves from the input, and has every probe bit of
the inserted key set. -/
theorem bloom_add_spec {f g : BloomFilter} {item : List Nat} (hw : bloomWf f)
    (h : bloom_add f item = some g) :
    bloomWf g ∧ bloomEvolves f g ∧
      ∀ bi ∈ bloomProbes f.size_bits f.num_hashes (bloomHash1 f item)
          (bloomHash2 f item), bitGet (bloomArray g) bi = true := by
  rw [bloom_add, bloom_compute_hashes_eq hw, hw.arr_some] at h
  simp only at h
  cases hsb : bloomSetBits (bloomArray f)
      (bloomProbes f.size_bits f.num_hashes (bloomHash1 f item) (bloomHash2 f item)) with
  | none => rw [hsb] at h; cases h
  | some arr2 =>
    rw [hsb] at h
    have hg : g = { f with bit_array := some arr2 } := by
      cases h; rfl
    subst hg
    have hsub : bitsSub (bloomArray f) arr2 := bloomSetBits_sub hsb
    have harr : bloomArray { f with bit_array := some arr2 } = arr2 := by
      simp [bloomArray]
    refine ⟨?_, ?_, ?_⟩
    · exact
        { sb_pos := hw.sb_pos
          k_pos := hw.k_pos
          arr_some := by rw [harr]
          arr_len := by rw [harr]; rw [← hsub.len]; exact hw.arr_len
          bytes_enough := hw.bytes_enough }
    · exact ⟨⟨rfl, rfl, rfl, rfl, rfl⟩, by rw [harr]; exact hsub⟩
    · intro bi hbi
      rw [harr]
      exact bloomSetBits_marks hsb bi hbi

/-- `bloom_addAll` on a well-formed filter yields a well-formed filter
that evolves from the input. -/
theorem bloom_addAll_spec {items : List (List Nat)} :
    ∀ {f g : BloomFilter}, bloomWf f → bloom_addAll f items = some g →
      bloomWf g ∧ bloomEvolves f g := by
  induction items with
  | nil =>
    intro f g hw h
    cases h
    exact ⟨hw, bloomEvolves_refl _⟩
  | cons item rest ih =>
    intro f g hw h
    simp only [bloom_addAll] at h
    cases ha : bloom_add f item with
    | none => rw [ha] at h; cases h
    | some f2 =>
      rw [ha] at h
      obtain ⟨hw2, hev2, _⟩ := bloom_add_spec hw ha
      obtain ⟨hwg, hevg⟩ := ih hw2 h
      exact ⟨hwg, bloomEvolves_trans hev2 hevg⟩

/-- `bloom_contains` answers `true` whenever all probe bits of the key
are set in a well-formed filter. -/
theorem bloom_contains_true {g : BloomFilter} {item : List Nat} (hw : bloomWf g)
    (hm : ∀ bi ∈ bloomProbes g.size_bits g.num_hashes (bloomHash1 g item)
        (bloomHash2 g item), bitGet (bloomArray g) bi = true) :
    bloom_contains g item = some true := by
  rw [bloom_contains, bloom_compute_hashes_eq hw, hw.arr_some]
  simp only
  refine bloomCheckBits_true fun bi hbi => ⟨?_, hm bi hbi⟩
  have h1 : bi < g.size_bits := bloomProbes_mem_lt hw.sb_pos hbi
  have h2 : bi >>> 3 < (g.size_bits + 7) / 8 := byteIndex_lt h1
  have h3 := hw.bytes_enough
  rw [hw.arr_len]
  omega

/-- The 64-bit digest one `lbf_add` / `lbf_contains` call computes. -/
def lbfDigest (f : LightweightBloomFilter) (item : List Nat) : Nat :=
  XXH64 item f.seed

/-- The block (word) index one `lbf_add` / `lbf_contains` call selects. -/
def lbfBlock (f : LightweightBloomFilter) (item : List Nat) : Nat :=
  block_index_from_hash (lbfDigest f item) f.block_bits f.word_mask

/-- Well-formedness of a blocked filter as established by a successful
`lbf_init`: positive hash count, an allocated word array of length
`word_count`, with `word_count = 2 ^ block_bits` and the matching mask. -/
structure lbfWf (f : LightweightBloomFilter) : Prop where
  k_pos : f.num_hashes ≠ 0
  arr_some : f.bit_array = some (lbfArray f)
  arr_len : (lbfArray f).length = f.word_count
  wc_pow : f.word_count = 2 ^ f.block_bits
  mask_eq : f.word_mask = f.word_count - 1

/-- Equality of all shape (non-array) fields of two blocked filters. -/
structure lbfShape (f g : LightweightBloomFilter) : Prop where
  sb : g.size_bits = f.size_bits
  k : g.num_hashes = f.num_hashes
  seed : g.seed = f.seed
  wc : g.word_count = f.word_count
  mask : g.word_mask = f.word_mask
  bb : g.block_bits = f.block_bits

/-- One or more `lbf_add` steps: shape unchanged, bits only gained. -/
structure lbfEvolves (f g : LightweightBloomFilter) : Prop where
  shape : lbfShape f g
  sub : bitsSub (lbfArray f) (lbfArray g)

theorem lbfShape_refl (f : LightweightBloomFilter) : lbfShape f f :=
  ⟨rfl, rfl, rfl, rfl, rfl, rfl⟩

theorem lbfShape_trans {f g h : LightweightBloomFilter} (h1 : lbfShape f g)
    (h2 : lbfShape g h) : lbfShape f h :=
  ⟨h2.sb.trans h1.sb, h2.k.trans h1.k, h2.seed.trans h1.seed,
   h2.wc.trans h1.wc, h2.mask.trans h1.mask, h2.bb.trans h1.bb⟩

theorem lbfEvolves_refl (f : LightweightBloomFilter) : lbfEvolves f f :=
  ⟨lbfShape_refl f, bitsSub_refl _⟩

theorem lbfEvolves_trans {f g h : LightweightBloomFilter}
    (h1 : lbfEvolves f g) (h2 : lbfEvolves g h) : lbfEvolves f h :=
  ⟨lbfShape_trans h1.shape h2.shape, bitsSub_trans h1.sub h2.sub⟩

/-- The selected block index is always inside the word array of a
well-formed blocked filter. -/
theorem lbfBlock_lt {f : LightweightBloomFilter} (hw : lbfWf f)
    (item : List Nat) : lbfBlock f item < f.word_count := by
  have hpos : 0 < f.word_count := by
    rw [hw.wc_pow]; exact Nat.two_pow_pos _
  unfold lbfBlock block_index_from_hash
  by_cases hb : f.block_bits = 0
  · rw [if_pos hb]; exact hpos
  · rw [if_neg hb, hw.mask_eq]
    exact Nat.lt_of_le_of_lt Nat.and_le_right (by omega)

theorem lbf_word_or_mono (bits : List Nat) :
    ∀ {w j : Nat}, w.testBit j = true → (lbf_word_or w bits).testBit j = true := by
  induction bits with
  | nil => intro w j h; exact h
  | cons b rest ih =>
    intro w j h
    show (lbf_word_or (w ||| (1 <<< b)) rest).testBit j = true
    exact ih (testBit_or_of_testBit _ h)

theorem lbf_word_or_marks (bits : List Nat) :
    ∀ (w : Nat), ∀ b ∈ bits, (lbf_word_or w bits).testBit b = true := by
  induction bits with
  | nil => intro w b hb; cases hb
  | cons hd rest ih =>
    intro w b hb
    rcases List.mem_cons.mp hb with heq | hmem
    · subst heq
      show (lbf_word_or (w ||| (1 <<< b)) rest).testBit b = true
      exact lbf_word_or_mono rest (testBit_or_shift_self w b)
    · exact ih (w ||| (1 <<< hd)) b hmem

theorem lbf_check_of_marks {w : Nat} {bits : List Nat}
    (h : ∀ b ∈ bits, w.testBit b = true) : lbf_check w bits = true := by
  simp only [lbf_check, List.all_eq_true, decide_eq_true_eq]
  exact fun b hb => (and_shift_ne_zero w b).mpr (h b hb)

/-- What one successful `lbf_add` does on a well-formed filter: the
result is well-formed, evolves from the input, every drawn bit is set in
the selected word, and every other word is untouched. -/
theorem lbf_add_spec {f g : LightweightBloomFilter} {item : List Nat}
    (hw : lbfWf f) (h : lbf_add f item = some g) :
    lbfWf g ∧ lbfEvolves f g ∧
      (∀ b ∈ lbf_bits (lbfDigest f item) f.num_hashes,
        (((lbfArray g)[lbfBlock f item]?).getD 0).testBit b = true) ∧
      ∀ j, j ≠ lbfBlock f item → (lbfArray g)[j]? = (lbfArray f)[j]? := by
  have hlt : lbfBlock f item < (lbfArray f).length := by
    rw [hw.arr_len]; exact lbfBlock_lt hw item
  have hword : (lbfArray f)[lbfBlock f item]? = some (lbfArray f)[lbfBlock f item] :=
    List.getElem?_eq_getElem hlt
  rw [lbf_add, hw.arr_some] at h
  simp only at h
  rw [show block_index_from_hash (XXH64 item f.seed) f.block_bits f.word_mask
      = lbfBlock f item from rfl, hword] at h
  simp only at h
  have hg : g = { f with bit_array := some ((lbfArray f).set (lbfBlock f item)
      (lbf_word_or (lbfArray f)[lbfBlock f item]
        (lbf_bits (XXH64 item f.seed) f.num_hashes))) } := by
    cases h; rfl
  subst hg
  have harr : lbfArray { f with bit_array := some ((lbfArray f).set (lbfBlock f item)
      (lbf_word_or (lbfArray f)[lbfBlock f item]
        (lbf_bits (XXH64 item f.seed) f.num_hashes))) }
      = (lbfArray f).set (lbfBlock f item)
        (lbf_word_or (lbfArray f)[lbfBlock f item]
          (lbf_bits (XXH64 item f.seed) f.num_hashes)) := by
    simp [lbfArray]
  have hsub : bitsSub (lbfArray f) ((lbfArray f).set (lbfBlock f item)
      (lbf_word_or (lbfArray f)[lbfBlock f item]
        (lbf_bits (XXH64 item f.seed) f.num_hashes))) := by
    refine ⟨(List.length_set _ _ _).symm, fun i j hj => ?_⟩
    by_cases hij : lbfBlock f item = i
    · subst hij
      rw [List.getElem?_set_self hlt]
      rw [hword] at hj
      exact lbf_word_or_mono _ hj
    · rwa [List.getElem?_set_ne hij]
  refine ⟨?_, ?_, ?_, ?_⟩
  · exact
      { k_pos := hw.k_pos
        arr_some := by rw [harr]
        arr_len := by rw [harr, List.length_set]; exact hw.arr_len
        wc_pow := hw.wc_pow
        mask_eq := hw.mask_eq }
  · exact ⟨⟨rfl, rfl, rfl, rfl, rfl, rfl⟩, by rw [harr]; exact hsub⟩
  · intro b hb
    rw [harr, List.getElem?_set_self hlt]
    exact lbf_word_or_marks _ _ b hb
  · intro j hj
    rw [harr, List.getElem?_set_ne fun he => hj he.symm]

/-- `lbf_addAll` on a well-formed filter yields a well-formed filter that
evolves from the input. -/
theorem lbf_addAll_spec {items : List (List Nat)} :
    ∀ {f g : LightweightBloomFilter}, lbfWf f → lbf_addAll f items = some g →
      lbfWf g ∧ lbfEvolves f g := by
  induction items with
  | nil =>
    intro f g hw h
    cases h
    exact ⟨hw, lbfEvolves_refl _⟩
  | cons item rest ih =>
    intro f g hw h
    simp only [lbf_addAll] at h
    cases ha : lbf_add f item with
    | none => rw [ha] at h; cases h
    | some f2 =>
      rw [ha] at h
      obtain ⟨hw2, hev2, _, _⟩ := lbf_add_spec hw ha
      obtain ⟨hwg, hevg⟩ := ih hw2 h
      exact ⟨hwg, lbfEvolves_trans hev2 hevg⟩

/-- `lbf_contains` answers `true` whenever all drawn bits of the key are
set in its block word of a well-formed filter. -/
theorem lbf_contains_true {g : LightweightBloomFilter} {item : List Nat}
    (hw : lbfWf g)
    (hm : ∀ b ∈ lbf_bits (lbfDigest g item) g.num_hashes,
      (((lbfArray g)[lbfBlock g item]?).getD 0).testBit b = true) :
    lbf_contains g item = some true := by
  have hlt : lbfBlock g item < (lbfArray g).length := by
    rw [hw.arr_len]; exact lbfBlock_lt hw item
  have hword : (lbfArray g)[lbfBlock g item]? = some (lbfArray g)[lbfBlock g item] :=
    List.getElem?_eq_getElem hlt
  rw [lbf_contains, hw.arr_some]
  simp only
  rw [show block_index_from_hash (XXH64 item g.seed) g.block_bits g.word_mask
      = lbfBlock g item from rfl, hword]
  simp only
  congr 1
  refine lbf_check_of_marks fun b hb => ?_
  have := hm b hb
  rwa [hword] at this

/-- The digest, drawn bit sequence and block index depend only on the
shape fields, so they are invariant along `lbfEvolves`. -/
theorem lbf_probe_shape {f g : LightweightBloomFilter} (hs : lbfShape f g)
    (item : List Nat) :
    lbfDigest g item = lbfDigest f item ∧ lbfBlock g item = lbfBlock f item ∧
      lbf_bits (lbfDigest g item) g.num_hashes
        = lbf_bits (lbfDigest f item) f.num_hashes := by
  unfold lbfDigest lbfBlock lbfDigest
  rw [hs.seed, hs.k, hs.mask, hs.bb]
  exact ⟨rfl, rfl, rfl⟩

/-- The probe list of the standard filter depends only on shape fields. -/
theorem bloom_probe_shape {f g : BloomFilter} (hs : bloomShape f g)
    (item : List Nat) :
    bloomHash1 g item = bloomHash1 f item ∧ bloomHash2 g item = bloomHash2 f item ∧
      bloomProbes g.size_bits g.num_hashes (bloomHash1 g item) (bloomHash2 g item)
        = bloomProbes f.size_bits f.num_hashes (bloomHash1 f item) (bloomHash2 f item) := by
  unfold bloomHash1 bloomHash2 bloomProbes
  rw [hs.s1, hs.s2, hs.sb, hs.k]
  exact ⟨rfl, rfl, rfl⟩

/-- C1: for every well-formed (successfully initialized) filter of either
kind and every key `x`, once `insert(f, x)` has been performed,
`contains(f, x)` returns `true`, no matter which other keys were inserted
before (`pre`) or after (`post`) it. -/
theorem claim_C1_no_false_negatives
    (fb : BloomFilter) (fl : LightweightBloomFilter) (x : List Nat)
    (preB postB preL postL : List (List Nat))
    (a b c : BloomFilter) (d e g : LightweightBloomFilter)
    (hwb : bloomWf fb) (hwl : lbfWf fl)
    (hb1 : bloom_addAll fb preB = some a)
    (hb2 : bloom_add a x = some b)
    (hb3 : bloom_addAll b postB = some c)
    (hl1 : lbf_addAll fl preL = some d)
    (hl2 : lbf_add d x = some e)
    (hl3 : lbf_addAll e postL = some g) :
    bloom_contains c x = some true ∧ lbf_contains g x = some true := by
  constructor
  · obtain ⟨hwa, _⟩ := bloom_addAll_spec hwb hb1
    obtain ⟨hwb2, hevb, hmarks⟩ := bloom_add_spec hwa hb2
    obtain ⟨hwc, hevc⟩ := bloom_addAll_spec hwb2 hb3
    refine bloom_contains_true hwc fun bi hbi => ?_
    rw [(bloom_probe_shape hevc.shape x).2.2,
        (bloom_probe_shape hevb.shape x).2.2] at hbi
    exact bitGet_of_bitsSub hevc.sub (hmarks bi hbi)
  · obtain ⟨hwd, _⟩ := lbf_addAll_spec hwl hl1
    obtain ⟨hwe, heve, hmarks, _⟩ := lbf_add_spec hwd hl2
    obtain ⟨hwg, hevg⟩ := lbf_addAll_spec hwe hl3
    refine lbf_contains_true hwg fun bi hbi => ?_
    obtain ⟨hdg, hblkg, hbitsg⟩ := lbf_probe_shape hevg.shape x
    obtain ⟨hde, hblke, hbitse⟩ := lbf_probe_shape heve.shape x
    rw [hbitsg, hbitse] at hbi
    rw [hblkg, hblke]
    exact hevg.sub.bits _ _ (hmarks bi hbi)

def c1fb : BloomFilter :=
  { size_bits := 64, num_hashes := 2, seed1 := 0, seed2 := 0,
    bit_array := some [0, 0, 0, 0, 0, 0, 0, 0], byte_length := 8 }

def c1A : BloomFilter :=
  { c1fb with bit_array := some [8, 0, 0, 0, 0, 0, 4, 0] }

def c1B : BloomFilter :=
  { c1fb with bit_array := some [8, 0, 0, 0, 0, 64, 4, 0] }

def c1C : BloomFilter :=
  { c1fb with bit_array := some [8, 16, 0, 128, 0, 64, 4, 0] }

def c1fl : LightweightBloomFilter :=
  { size_bits := 64, num_hashes := 2, seed := 0, word_count := 1,
    word_mask := 0, block_bits := 0, bit_array := some [0] }

def c1D : LightweightBloomFilter :=
  { c1fl with bit_array := some [33] }

def c1E : LightweightBloomFilter :=
  { c1fl with bit_array := some [633318697599009] }

def c1G : LightweightBloomFilter :=
  { c1fl with bit_array := some [633327287533609] }

/-- Witness for C1: concrete 64-bit filters, key "a" inserted between
keys "b" and "c"; membership of "a" holds afterwards in both filters. -/
theorem claim_C1_no_false_negatives_witness :
    bloom_contains c1C [97] = some true ∧ lbf_contains c1G [97] = some true :=
  claim_C1_no_false_negatives c1fb c1fl [97] [[98]] [[99]] [[98]] [[99]]
    c1A c1B c1C c1D c1E c1G
    ⟨by decide, by decide, rfl, by decide, by decide⟩
    ⟨by decide, rfl, by decide, by decide, by decide⟩
    (by decide) (by decide) (by decide) (by decide) (by decide) (by decide)

/-- C2: on the all-zero (unreleased-but-zero-valued or released) filter
struct, the standard filter's guard makes `insert` a no-op and `contains`
return `false`; but the blocked filter has no such guard and dereferences
its NULL `bit_array` (`none` = undefined behavior), contradicting the
claim for the blocked kind. -/
theorem claim_C2_zero_filter_behavior :
    bloom_add bloomZero [97] = some bloomZero ∧
    bloom_contains bloomZero [97] = some false ∧
    lbf_add lbfZero [97] = none ∧
    lbf_contains lbfZero [97] = none := by
  refine ⟨rfl, rfl, ?_, ?_⟩ <;> rfl

def c3f : BloomFilter :=
  { size_bits := 16, num_hashes := 3, seed1 := 5, seed2 := 7,
    bit_array := some [255, 255], byte_length := 2 }

def c3g : LightweightBloomFilter :=
  { size_bits := 64, num_hashes := 3, seed := 9, word_count := 1,
    word_mask := 0, block_bits := 0, bit_array := some [17] }

/-- Counterexample to C3 as stated: on allocation failure with valid
parameters, `bloom_init` has already overwritten every field of the
caller's struct with zeros, so the caller-visible state is NOT unchanged
from before the call. -/
theorem claim_C3_counterexample :
    (bloom_init false c3f 8 1 0 0).1 = false ∧
      (bloom_init false c3f 8 1 0 0).2 ≠ c3f := by
  constructor
  · rfl
  · intro h
    have : (bloom_init false c3f 8 1 0 0).2.num_hashes = c3f.num_hashes := by rw [h]
    simp [bloom_init, c3f, SIZE_MAX, U64] at this

/-- C3 (amended): an `init` failure never leaves a partially constructed
filter.  Invalid-parameter failures leave the struct unchanged for both
kinds, and any `lbf_init` failure leaves the struct unchanged; but on
allocation failure `bloom_init` resets the caller's struct to the
all-zero inert state (a visible change, though not a partially
constructed filter). -/
theorem claim_C3_init_failure_state (alloc : Bool) (f : BloomFilter)
    (g : LightweightBloomFilter) (size_bits num_hashes seed1 seed2 seed : Nat) :
    ((size_bits = 0 ∨ num_hashes = 0 ∨ SIZE_MAX - 7 < size_bits) →
      bloom_init alloc f size_bits num_hashes seed1 seed2 = (false, f)) ∧
    (alloc = false → size_bits ≠ 0 → num_hashes ≠ 0 →
      ¬ SIZE_MAX - 7 < size_bits →
      bloom_init alloc f size_bits num_hashes seed1 seed2 = (false, bloomZero)) ∧
    ((lbf_init alloc g size_bits num_hashes seed).1 = false →
      (lbf_init alloc g size_bits num_hashes seed).2 = g) := by
  refine ⟨?_, ?_, ?_⟩
  · intro h
    unfold bloom_init
    split_ifs with h1 h2 h3
    · rfl
    · rfl
    · exfalso; omega
    · exfalso; omega
  · intro ha h1 h2 h3
    subst ha
    unfold bloom_init
    rw [if_neg (by omega), if_neg h3]
    rfl
  · unfold lbf_init
    split_ifs with h1 h2
    · intro _; rfl
    · intro _; rfl
    · intro h; cases h

/-- Witness for the amended C3: concrete parameter-failure, concrete
allocation-failure clobbering, and a concrete `lbf_init` failure leaving
the struct untouched. -/
theorem claim_C3_init_failure_state_witness :
    bloom_init false c3f 0 1 0 0 = (false, c3f) ∧
    bloom_init false c3f 8 1 0 0 = (false, bloomZero) ∧
    (lbf_init false c3g 8 1 0).2 = c3g :=
  ⟨(claim_C3_init_failure_state false c3f c3g 0 1 0 0 0).1 (Or.inl rfl),
   (claim_C3_init_failure_state false c3f c3g 8 1 0 0 0).2.1 rfl
     (by decide) (by decide) (by decide),
   (claim_C3_init_failure_state false c3f c3g 8 1 0 0 0).2.2 (by decide)⟩

/-- A freshly calloc-ed (all-zero) array has every bit clear. -/
theorem bitGet_replicate_zero (n bi : Nat) :
    bitGet (List.replicate n 0) bi = false := by
  unfold bitGet
  rcases Nat.lt_or_ge (bi >>> 3) n with h | h
  · rw [List.getElem?_replicate_of_lt h]
    simp [Nat.zero_testBit]
  · rw [List.getElem?_eq_none (by simpa using h)]
    simp [Nat.zero_testBit]

/-- C4: `bloom_init` fails exactly when `size_bits < 1`, `num_hashes = 0`,
`size_bits` overflows the byte-length arithmetic (`size_bits > SIZE_MAX - 7`)
or the allocation fails; on success every bit of the returned filter is
clear.  `lbf_init` fails under the same `size_bits < 1` / `num_hashes = 0`
conditions. -/
theorem claim_C4_init_failure_iff (alloc : Bool) (f : BloomFilter)
    (g : LightweightBloomFilter) (size_bits num_hashes seed1 seed2 seed : Nat) :
    ((bloom_init alloc f size_bits num_hashes seed1 seed2).1 = false ↔
      (size_bits < 1 ∨ num_hashes = 0 ∨ SIZE_MAX - 7 < size_bits ∨ alloc = false)) ∧
    ((bloom_init alloc f size_bits num_hashes seed1 seed2).1 = true →
      ∀ bi, bitGet (bloomArray (bloom_init alloc f size_bits num_hashes seed1 seed2).2) bi
        = false) ∧
    ((size_bits < 1 ∨ num_hashes = 0) →
      (lbf_init alloc g size_bits num_hashes seed).1 = false) := by
  refine ⟨?_, ?_, ?_⟩
  · unfold bloom_init
    split_ifs with h1 h2 h3
    · refine iff_of_true rfl ?_
      rcases h1 with h | h
      · exact Or.inl h
      · exact Or.inr (Or.inl h)
    · exact iff_of_true rfl (Or.inr (Or.inr (Or.inl h2)))
    · exact iff_of_true rfl (Or.inr (Or.inr (Or.inr h3)))
    · refine iff_of_false (fun h => by simp at h) (fun h => ?_)
      rcases h with h | h | h | h
      · exact h1 (Or.inl h)
      · exact h1 (Or.inr h)
      · exact h2 h
      · exact h3 h
  · unfold bloom_init
    split_ifs with h1 h2 h3
    · intro h; cases h
    · intro h; cases h
    · intro h; cases h
    · intro _ bi
      simp only [bloomArray, Option.getD_some]
      exact bitGet_replicate_zero _ bi
  · intro h
    unfold lbf_init
    rw [if_pos h]

/-- Witness for C4: `size_bits = 0` makes both inits fail, and a
successful 8-bit standard init has (for example) bit 3 clear. -/
theorem claim_C4_init_failure_iff_witness :
    (bloom_init true bloomZero 0 1 0 0).1 = false ∧
    bitGet (bloomArray (bloom_init true bloomZero 8 1 0 0).2) 3 = false ∧
    (lbf_init true lbfZero 0 1 0).1 = false :=
  ⟨(claim_C4_init_failure_iff true bloomZero lbfZero 0 1 0 0 0).1.mpr
      (Or.inl (by decide)),
   (claim_C4_init_failure_iff true bloomZero lbfZero 8 1 0 0 0).2.1 (by decide) 3,
   (claim_C4_init_failure_iff true bloomZero lbfZero 0 1 0 0 0).2.2
      (Or.inl (by decide))⟩

def c5f : BloomFilter :=
  { size_bits := 1, num_hashes := 2, seed1 := 5, seed2 := 7,
    bit_array := some [0], byte_length := 1 }

/-- C5: on any filter that reaches the hash computation, the stride `h2`
handed to the probe loops of `bloom_add` / `bloom_contains` is
`hash64(key, seed2) mod size_bits`, replaced by `1` exactly when that
residue is `0`; in particular the stride is never `0`. -/
theorem claim_C5_nonzero_stride (f : BloomFilter) (item : List Nat)
    (hsb : f.size_bits ≠ 0) (harr : f.bit_array ≠ none) :
    bloom_compute_hashes f item
      = some (murmurhash item f.seed1,
          if XXH64 item f.seed2 % f.size_bits = 0 then 1
          else XXH64 item f.seed2 % f.size_bits) ∧
    ∀ p, bloom_compute_hashes f item = some p → 0 < p.2 := by
  have heq : bloom_compute_hashes f item
      = some (murmurhash item f.seed1,
          if XXH64 item f.seed2 % f.size_bits = 0 then 1
          else XXH64 item f.seed2 % f.size_bits) := by
    unfold bloom_compute_hashes
    rw [if_neg (by push_neg; exact ⟨hsb, harr⟩)]
  refine ⟨heq, fun p hp => ?_⟩
  rw [heq] at hp
  cases hp
  by_cases hz : XXH64 item f.seed2 % f.size_bits = 0
  · simp [hz]
  · simp [hz]
    omega

/-- Witness for C5: a 1-bit filter forces the residue to 0, so the clamp
to stride 1 is exercised. -/
theorem claim_C5_nonzero_stride_witness :
    bloom_compute_hashes c5f [97]
      = some (murmurhash [97] c5f.seed1,
          if XXH64 [97] c5f.seed2 % c5f.size_bits = 0 then 1
          else XXH64 [97] c5f.seed2 % c5f.size_bits) ∧
    0 < (murmurhash [97] c5f.seed1,
          if XXH64 [97] c5f.seed2 % c5f.size_bits = 0 then 1
          else XXH64 [97] c5f.seed2 % c5f.size_bits).2 :=
  ⟨(claim_C5_nonzero_stride c5f [97] (by decide) (by decide)).1,
   (claim_C5_nonzero_stride c5f [97] (by decide) (by decide)).2 _
     (claim_C5_nonzero_stride c5f [97] (by decide) (by decide)).1⟩

/-- The bit-smearing cascade of `next_power_of_two`, factored for the
proofs: each step ORs in a right shift. -/
def smear64fun (w : Nat) : Nat :=
  let v := w ||| (w >>> 1)
  let v := v ||| (v >>> 2)
  let v := v ||| (v >>> 4)
  let v := v ||| (v >>> 8)
  let v := v ||| (v >>> 16)
  v ||| (v >>> 32)

/-- One smear step doubles the window of source bits that reach each
output bit. -/
theorem smear_cover_step {w s : Nat} (k : Nat)
    (h : ∀ i j, i ≤ j → j < i + k → w.testBit j = true → s.testBit i = true) :
    ∀ i j, i ≤ j → j < i + (k + k) → w.testBit j = true →
      (s ||| (s >>> k)).testBit i = true := by
  intro i j hij hjk hw
  rw [Nat.testBit_or]
  rcases Nat.lt_or_ge j (i + k) with hc | hc
  · rw [h i j hij hc hw]
    simp
  · have hr : (s >>> k).testBit i = true := by
      rw [Nat.testBit_shiftRight]
      exact h (k + i) j (by omega) (by omega) hw
    rw [hr]
    simp

/-- After the full cascade, every output bit sees a 64-bit window of
source bits above it. -/
theorem smear64fun_cover {w : Nat} :
    ∀ i j, i ≤ j → j < i + 64 → w.testBit j = true →
      (smear64fun w).testBit i = true := by
  have c0 : ∀ i j, i ≤ j → j < i + 1 → w.testBit j = true → w.testBit i = true := by
    intro i j hij hj hw
    have : j = i := by omega
    subst this
    exact hw
  have c1 := smear_cover_step 1 c0
  have c2 := smear_cover_step 2 c1
  have c3 := smear_cover_step 4 c2
  have c4 := smear_cover_step 8 c3
  have c5 := smear_cover_step 16 c4
  have c6 := smear_cover_step 32 c5
  intro i j hij hj hw
  exact c6 i j hij (by omega) hw

/-- The smear cascade never leaves the power-of-two range of its input. -/
theorem smear64fun_lt {w n : Nat} (hb : w < 2 ^ n) : smear64fun w < 2 ^ n := by
  have step : ∀ s k, s < 2 ^ n → s ||| (s >>> k) < 2 ^ n := by
    intro s k hs
    refine Nat.or_lt_two_pow hs (lt_of_le_of_lt ?_ hs)
    rw [Nat.shiftRight_eq_div_pow]
    exact Nat.div_le_self _ _
  exact step _ 32 (step _ 16 (step _ 8 (step _ 4 (step _ 2 (step _ 1 hb)))))

/-- The top bit (at index `size - 1`) of a positive number is set. -/
theorem testBit_size_pred {w : Nat} (hw : 0 < w) :
    w.testBit (w.size - 1) = true := by
  have hlt : w < 2 ^ w.size := Nat.lt_size_self w
  have hsz : 1 ≤ w.size := by
    by_contra h
    push_neg at h
    have : w.size ≤ 0 := by omega
    have : w < 2 ^ 0 := Nat.size_le.mp this
    omega
  by_contra hbit
  simp only [Nat.testBit_to_div_mod, decide_eq_true_eq] at hbit
  have hpos : 0 < 2 ^ (w.size - 1) := Nat.two_pow_pos _
  have hdiv : w / 2 ^ (w.size - 1) < 2 := by
    rw [Nat.div_lt_iff_lt_mul hpos]
    calc w < 2 ^ w.size := hlt
    _ = 2 ^ (w.size - 1 + 1) := by congr 1; omega
    _ = 2 * 2 ^ (w.size - 1) := by rw [Nat.pow_succ]; ring
  have hzero : w / 2 ^ (w.size - 1) = 0 := by
    generalize w / 2 ^ (w.size - 1) = x at hbit hdiv ⊢
    omega
  have : ¬ 2 ^ (w.size - 1) ≤ w := by
    intro hle
    have : 1 ≤ w / 2 ^ (w.size - 1) := (Nat.one_le_div_iff hpos).mpr hle
    omega
  have : w < 2 ^ (w.size - 1) := by omega
  have : w.size ≤ w.size - 1 := Nat.size_le.mpr this
  omega

/-- For `0 < w < 2^64` the smear cascade produces the all-ones mask up to
the top bit of `w`. -/
theorem smear64fun_eq {w : Nat} (hw : 0 < w) (hb : w < 2 ^ 64) :
    smear64fun w = 2 ^ w.size - 1 := by
  apply Nat.eq_of_testBit_eq
  intro i
  rcases Nat.lt_or_ge i w.size with hi | hi
  · have hsz64 : w.size ≤ 64 := Nat.size_le.mpr hb
    have hcov : (smear64fun w).testBit i = true :=
      smear64fun_cover i (w.size - 1) (by omega) (by omega) (testBit_size_pred hw)
    rw [hcov, Nat.testBit_two_pow_sub_one]
    simp [hi]
  · have hsm : smear64fun w < 2 ^ i :=
      lt_of_lt_of_le (smear64fun_lt (Nat.lt_size_self w))
        (Nat.pow_le_pow_right (by norm_num) hi)
    rw [Nat.testBit_lt_two_pow hsm, Nat.testBit_two_pow_sub_one]
    simp
    omega

/-- For `2 ≤ v ≤ 2^63`, `next_power_of_two` returns
`2 ^ size (v - 1)`. -/
theorem next_power_of_two_pow {v : Nat} (h2 : 2 ≤ v) (hb : v ≤ 2 ^ 63) :
    next_power_of_two v = 2 ^ (v - 1).size := by
  have h63 : (2 : Nat) ^ 63 = 9223372036854775808 := by norm_num
  have hw : 0 < v - 1 := by omega
  have hwb : v - 1 < 2 ^ 64 := by
    have h64 : (2 : Nat) ^ 64 = 18446744073709551616 := by norm_num
    omega
  unfold next_power_of_two
  rw [if_neg (by omega)]
  show (smear64fun (v - 1) + 1) % U64 = 2 ^ (v - 1).size
  rw [smear64fun_eq hw hwb]
  have hsize : (v - 1).size ≤ 63 := Nat.size_le.mpr (by omega)
  have hple : 2 ^ (v - 1).size ≤ 2 ^ 63 := Nat.pow_le_pow_right (by norm_num) hsize
  have hpos : 0 < 2 ^ (v - 1).size := Nat.two_pow_pos _
  have heq : 2 ^ (v - 1).size - 1 + 1 = 2 ^ (v - 1).size := by omega
  rw [heq]
  apply Nat.mod_eq_of_lt
  have : U64 = 18446744073709551616 := rfl
  omega

/-- Characterization of `next_power_of_two` on its realizable domain: the
result is the least power of two at least `v`. -/
theorem next_power_of_two_spec {v : Nat} (h1 : 1 ≤ v) (hb : v ≤ 2 ^ 63) :
    (∃ e, next_power_of_two v = 2 ^ e) ∧ v ≤ next_power_of_two v ∧
      ∀ e2, v ≤ 2 ^ e2 → next_power_of_two v ≤ 2 ^ e2 := by
  rcases Nat.lt_or_ge v 2 with hv | hv
  · have hv1 : v = 1 := by omega
    subst hv1
    have h1eq : next_power_of_two 1 = 1 := by unfold next_power_of_two; rw [if_pos (by omega)]
    rw [h1eq]
    exact ⟨⟨0, rfl⟩, le_refl 1, fun e2 _ => Nat.two_pow_pos e2⟩
  · rw [next_power_of_two_pow hv hb]
    refine ⟨⟨_, rfl⟩, ?_, ?_⟩
    · have := Nat.lt_size_self (v - 1)
      omega
    · intro e2 hle
      exact Nat.pow_le_pow_right (by norm_num) (Nat.size_le.mpr (by omega))

/-- Evaluation of a successful `lbf_init` in the no-wraparound regime. -/
theorem lbf_init_success_eq (g : LightweightBloomFilter)
    (size_bits num_hashes seed : Nat) (h1 : 1 ≤ size_bits)
    (h2 : size_bits + 63 < U64) (hk : num_hashes ≠ 0) :
    lbf_init true g size_bits num_hashes seed
      = (true,
         { size_bits := next_power_of_two ((size_bits + 63) / 64) * 64 % U64,
           num_hashes := num_hashes, seed := seed,
           word_count := next_power_of_two ((size_bits + 63) / 64),
           word_mask := next_power_of_two ((size_bits + 63) / 64) - 1,
           block_bits := lbf_count_bits (next_power_of_two ((size_bits + 63) / 64)),
           bit_array := some (List.replicate
             (next_power_of_two ((size_bits + 63) / 64)) 0) }) := by
  have hmod : (size_bits + 63) % U64 = size_bits + 63 := Nat.mod_eq_of_lt h2
  have hg : ¬ (size_bits < 1 ∨ num_hashes = 0) := by omega
  have hrw : ¬ ((size_bits + 63) / 64 = 0) := by omega
  unfold lbf_init
  rw [if_neg hg, hmod]
  dsimp only
  rw [if_neg hrw]
  rfl

/-- Counterexample to C6 as stated: the `(size_bits + 63) / 64` word-count
computation in `lbf_init` is `size_t` arithmetic and wraps.  With
`size_bits = 2^64 - 1` the sum wraps to 62, so `word_count` comes out as 1
instead of the smallest power of two at least `ceil(size_bits/64) = 2^58`;
and with `size_bits = 2^64 - 64` the exposed `size_bits` field is
`2^58 * 64 mod 2^64 = 0`, not `word_count * 64`.  (In the first case the
allocation is a single word, so the state is realizable in a real run.) -/
theorem claim_C6_counterexample :
    (lbf_init true lbfZero (U64 - 1) 1 0).1 = true ∧
    (lbf_init true lbfZero (U64 - 1) 1 0).2.word_count = 1 ∧
    ¬ 288230376151711744 ≤ (lbf_init true lbfZero (U64 - 1) 1 0).2.word_count ∧
    (lbf_init true lbfZero (U64 - 64) 1 0).2.word_count = 288230376151711744 ∧
    (lbf_init true lbfZero (U64 - 64) 1 0).2.size_bits = 0 ∧
    (lbf_init true lbfZero (U64 - 64) 1 0).2.size_bits
      ≠ (lbf_init true lbfZero (U64 - 64) 1 0).2.word_count * 64 := by
  exact ⟨by decide, by decide, by decide, by decide, by decide, by decide⟩

/-- C6 (amended): for requested sizes of at most `2^63` bits (no `size_t`
wraparound in the word-count computation), a successful blocked-filter
init sets `word_count` to the least power of two at least
`ceil(size_bits/64)` (at least 1), and the exposed `size_bits` field
equals `word_count * 64`. -/
theorem claim_C6_rounding (g : LightweightBloomFilter)
    (size_bits num_hashes seed : Nat) (h1 : 1 ≤ size_bits)
    (h2 : size_bits ≤ 2 ^ 63) (hk : num_hashes ≠ 0) :
    (lbf_init true g size_bits num_hashes seed).1 = true ∧
    (∃ e, (lbf_init true g size_bits num_hashes seed).2.word_count = 2 ^ e) ∧
    (size_bits + 63) / 64 ≤ (lbf_init true g size_bits num_hashes seed).2.word_count ∧
    (∀ e2, (size_bits + 63) / 64 ≤ 2 ^ e2 →
      (lbf_init true g size_bits num_hashes seed).2.word_count ≤ 2 ^ e2) ∧
    (lbf_init true g size_bits num_hashes seed).2.size_bits
      = (lbf_init true g size_bits num_hashes seed).2.word_count * 64 := by
  have h63 : (2 : Nat) ^ 63 = 9223372036854775808 := by norm_num
  have hU : U64 = 18446744073709551616 := rfl
  have hadd : size_bits + 63 < U64 := by omega
  have hr1 : 1 ≤ (size_bits + 63) / 64 := by omega
  have hr2 : (size_bits + 63) / 64 ≤ 2 ^ 57 := by
    have h57 : (2 : Nat) ^ 57 = 144115188075855872 := by norm_num
    omega
  obtain ⟨⟨e, he⟩, hge, hmin⟩ :=
    next_power_of_two_spec hr1 (le_trans hr2 (by norm_num))
  have hwcle : next_power_of_two ((size_bits + 63) / 64) ≤ 2 ^ 57 := by
    refine hmin 57 hr2
  rw [lbf_init_success_eq g size_bits num_hashes seed h1 hadd hk]
  have hsbmod : next_power_of_two ((size_bits + 63) / 64) * 64 % U64
      = next_power_of_two ((size_bits + 63) / 64) * 64 := by
    apply Nat.mod_eq_of_lt
    have h57 : (2 : Nat) ^ 57 = 144115188075855872 := by norm_num
    omega
  exact ⟨rfl, ⟨e, he⟩, hge, fun e2 h => hmin e2 h, hsbmod⟩

/-- Witness for the amended C6: the spec's own concrete cases,
`size_bits = 100` and `size_bits = 65`, both yield `word_count = 2` and
exposed `size_bits = 128`. -/
theorem claim_C6_rounding_witness :
    (lbf_init true lbfZero 100 3 0).2.word_count = 2 ∧
    (lbf_init true lbfZero 100 3 0).2.size_bits = 128 ∧
    (lbf_init true lbfZero 65 3 0).2.word_count = 2 ∧
    (lbf_init true lbfZero 65 3 0).2.size_bits = 128 := by
  obtain ⟨_, ⟨e, he⟩, hge, hmin, hsb⟩ :=
    claim_C6_rounding lbfZero 100 3 0 (by decide) (by norm_num) (by decide)
  obtain ⟨_, ⟨e2, he2⟩, hge2, hmin2, hsb2⟩ :=
    claim_C6_rounding lbfZero 65 3 0 (by decide) (by norm_num) (by decide)
  have hle : (lbf_init true lbfZero 100 3 0).2.word_count ≤ 2 ^ 1 := hmin 1 (by norm_num)
  have hle2 : (lbf_init true lbfZero 65 3 0).2.word_count ≤ 2 ^ 1 := hmin2 1 (by norm_num)
  have hp1 : (2 : Nat) ^ 1 = 2 := by norm_num
  have hw1 : (lbf_init true lbfZero 100 3 0).2.word_count = 2 := by omega
  have hw2 : (lbf_init true lbfZero 65 3 0).2.word_count = 2 := by omega
  exact ⟨hw1, by rw [hsb, hw1], hw2, by rw [hsb2, hw2]⟩

/-- C7: `insert` is monotone on bit content (every set bit stays set) and
changes none of the shape fields, for both filter kinds.  (`contains` is
a pure function of the filter in this embedding — it returns only a
boolean — so it trivially changes nothing.) -/
theorem claim_C7_insert_monotone (f f2 : BloomFilter)
    (l l2 : LightweightBloomFilter) (x y : List Nat)
    (hwb : bloomWf f) (hwl : lbfWf l)
    (hb : bloom_add f x = some f2) (hl : lbf_add l y = some l2) :
    (f2.size_bits = f.size_bits ∧ f2.num_hashes = f.num_hashes ∧
     f2.seed1 = f.seed1 ∧ f2.seed2 = f.seed2 ∧ f2.byte_length = f.byte_length) ∧
    (∀ bi, bitGet (bloomArray f) bi = true → bitGet (bloomArray f2) bi = true) ∧
    (l2.size_bits = l.size_bits ∧ l2.num_hashes = l.num_hashes ∧
     l2.seed = l.seed ∧ l2.word_count = l.word_count ∧
     l2.word_mask = l.word_mask ∧ l2.block_bits = l.block_bits) ∧
    (∀ (i j : Nat), (((lbfArray l)[i]?).getD 0).testBit j = true →
      (((lbfArray l2)[i]?).getD 0).testBit j = true) := by
  obtain ⟨_, hevb, _⟩ := bloom_add_spec hwb hb
  obtain ⟨_, hevl, _, _⟩ := lbf_add_spec hwl hl
  exact ⟨⟨hevb.shape.sb, hevb.shape.k, hevb.shape.s1, hevb.shape.s2, hevb.shape.bl⟩,
         fun bi hbi => bitGet_of_bitsSub hevb.sub hbi,
         ⟨hevl.shape.sb, hevl.shape.k, hevl.shape.seed, hevl.shape.wc,
          hevl.shape.mask, hevl.shape.bb⟩,
         fun i j hij => hevl.sub.bits i j hij⟩

/-- Witness for C7: inserting "a" into concrete pre-populated filters
keeps shape fields and previously set bits (bit 3 of the standard filter,
bit 0 of word 0 of the blocked one). -/
theorem claim_C7_insert_monotone_witness :
    (c1B.size_bits = c1A.size_bits ∧ c1B.num_hashes = c1A.num_hashes ∧
     c1B.seed1 = c1A.seed1 ∧ c1B.seed2 = c1A.seed2 ∧
     c1B.byte_length = c1A.byte_length) ∧
    bitGet (bloomArray c1B) 3 = true ∧
    (c1E.size_bits = c1D.size_bits ∧ c1E.num_hashes = c1D.num_hashes ∧
     c1E.seed = c1D.seed ∧ c1E.word_count = c1D.word_count ∧
     c1E.word_mask = c1D.word_mask ∧ c1E.block_bits = c1D.block_bits) ∧
    (((lbfArray c1E)[0]?).getD 0).testBit 0 = true := by
  obtain ⟨hsh, hmono, hshl, hmonol⟩ := claim_C7_insert_monotone c1A c1B c1D c1E [97] [97]
    ⟨by decide, by decide, rfl, by decide, by decide⟩
    ⟨by decide, rfl, by decide, by decide, by decide⟩
    (by decide) (by decide)
  exact ⟨hsh, hmono 3 (by decide), hshl, hmonol 0 0 (by decide)⟩

def c8f : LightweightBloomFilter :=
  { size_bits := 128, num_hashes := 2, seed := 0, word_count := 2,
    word_mask := 1, block_bits := 1, bit_array := some [0, 0] }

def c8f2 : LightweightBloomFilter :=
  { c8f with bit_array := some [0, 633318697598976] }

/-- C8: all bits touched by one key's `lbf_add` / `lbf_contains` live in
the single word selected by `block_index = (digest >> (64 - block_bits))
& word_mask` (index 0 when `word_count = 1`): `lbf_add` leaves every
other word unchanged, and the `lbf_contains` verdict is a function of
that single word (plus the shape fields and the key) only. -/
theorem claim_C8_block_locality (f f2 : LightweightBloomFilter)
    (x : List Nat) (hwf : lbfWf f) (hadd : lbf_add f x = some f2) :
    lbfBlock f x
      = block_index_from_hash (XXH64 x f.seed) f.block_bits f.word_mask ∧
    (f.word_count = 1 → lbfBlock f x = 0) ∧
    (∀ j, j ≠ lbfBlock f x → (lbfArray f2)[j]? = (lbfArray f)[j]?) ∧
    lbf_contains f x
      = some (lbf_check (((lbfArray f)[lbfBlock f x]?).getD 0)
          (lbf_bits (lbfDigest f x) f.num_hashes)) := by
  have hlt : lbfBlock f x < (lbfArray f).length := by
    rw [hwf.arr_len]; exact lbfBlock_lt hwf x
  have hword : (lbfArray f)[lbfBlock f x]? = some (lbfArray f)[lbfBlock f x] :=
    List.getElem?_eq_getElem hlt
  refine ⟨rfl, ?_, (lbf_add_spec hwf hadd).2.2.2, ?_⟩
  · intro h1
    have hone : 2 ^ f.block_bits = 1 := by rw [← hwf.wc_pow, h1]
    have hbb : f.block_bits = 0 := by
      by_contra hbb
      have h2 : (2 : Nat) ^ 1 ≤ 2 ^ f.block_bits :=
        Nat.pow_le_pow_right (by norm_num) (by omega)
      have h21 : (2 : Nat) ^ 1 = 2 := by norm_num
      omega
    unfold lbfBlock block_index_from_hash
    rw [if_pos hbb]
  · rw [lbf_contains, hwf.arr_some]
    simp only
    rw [show block_index_from_hash (XXH64 x f.seed) f.block_bits f.word_mask
        = lbfBlock f x from rfl, hword]
    rfl

def c8g2 : LightweightBloomFilter :=
  { c1fl with bit_array := some [633318697598976] }

/-- Witness for C8: on a concrete 2-word filter, key "a" selects word 1,
the insert leaves word 0 untouched, the query verdict is the stated
function of word 1 alone; and on a concrete 1-word filter the block index
is 0. -/
theorem claim_C8_block_locality_witness :
    lbfBlock c8f [97]
      = block_index_from_hash (XXH64 [97] c8f.seed) c8f.block_bits c8f.word_mask ∧
    (lbfArray c8f2)[0]? = (lbfArray c8f)[0]? ∧
    lbf_contains c8f [97]
      = some (lbf_check (((lbfArray c8f)[lbfBlock c8f [97]]?).getD 0)
          (lbf_bits (lbfDigest c8f [97]) c8f.num_hashes)) ∧
    lbfBlock c1fl [97] = 0 := by
  obtain ⟨hblk, _, hframe, hcont⟩ := claim_C8_block_locality c8f c8f2 [97]
    ⟨by decide, rfl, by decide, by decide, by decide⟩ (by decide)
  obtain ⟨_, hone2, _, _⟩ := claim_C8_block_locality c1fl c8g2 [97]
    ⟨by decide, rfl, by decide, by decide, by decide⟩ (by decide)
  exact ⟨hblk, hframe 0 (by decide), hcont, hone2 (by decide)⟩

/-- With enough fuel, the loop body computes the exact base-2 logarithm
on powers of two. -/
theorem lbf_count_bits_aux_pow :
    ∀ fuel e, 2 ^ e ≤ fuel → lbf_count_bits_aux fuel (2 ^ e) = e := by
  intro fuel
  induction fuel with
  | zero =>
    intro e he
    have := @Nat.one_le_two_pow e
    omega
  | succ f ih =>
    intro e he
    cases e with
    | zero =>
      show lbf_count_bits_aux (f + 1) 1 = 0
      unfold lbf_count_bits_aux
      norm_num
    | succ m =>
      have hpos : 1 ≤ 2 ^ m := Nat.one_le_two_pow
      have hs : (2 : Nat) ^ (m + 1) = 2 * 2 ^ m := by rw [Nat.pow_succ]; ring
      show lbf_count_bits_aux (f + 1) (2 ^ (m + 1)) = m + 1
      unfold lbf_count_bits_aux
      rw [if_pos (by omega)]
      have hshift : (2 : Nat) ^ (m + 1) >>> 1 = 2 ^ m := by
        rw [Nat.shiftRight_eq_div_pow, pow_one, hs]
        omega
      rw [hshift, ih m (by omega)]

/-- `lbf_count_bits` is the exact base-2 logarithm on powers of two. -/
theorem lbf_count_bits_pow (e : Nat) : lbf_count_bits (2 ^ e) = e :=
  lbf_count_bits_aux_pow (2 ^ e) e (le_refl _)

/-- A successful `bloom_init` (modelled with a succeeding allocation)
produces a well-formed filter with an all-zero byte array. -/
theorem bloom_init_wf {fOld f1 : BloomFilter} {sb k s1 s2 : Nat}
    (h : bloom_init true fOld sb k s1 s2 = (true, f1)) :
    bloomWf f1 ∧ bloomArray f1 = List.replicate f1.byte_length 0 := by
  have hU : U64 = 18446744073709551616 := rfl
  have hS : SIZE_MAX = 18446744073709551615 := rfl
  unfold bloom_init at h
  split_ifs at h with h1 h2 h3
  · simp at h
  · simp at h
  · simp at h3
  · injection h with h4 h5
    subst h5
    have hmod : (sb + 7) % U64 = sb + 7 := Nat.mod_eq_of_lt (by omega)
    refine ⟨⟨by simp; omega, by simp; omega, rfl, ?_, ?_⟩, ?_⟩
    · simp [bloomArray]
    · simp [bloomArray, hmod]
    · simp [bloomArray]

/-- A successful `lbf_init` (modelled with a succeeding allocation)
produces a well-formed filter with an all-zero word array. -/
theorem lbf_init_wf {lOld l1 : LightweightBloomFilter} {sb k sd : Nat}
    (h : lbf_init true lOld sb k sd = (true, l1)) :
    lbfWf l1 ∧ lbfArray l1 = List.replicate l1.word_count 0 := by
  have hU : U64 = 18446744073709551616 := rfl
  unfold lbf_init at h
  split_ifs at h with h1 h2
  · simp at h
  · simp at h2
  · injection h with h4 h5
    subst h5
    have hrb : (sb + 63) % U64 / 64 ≤ 2 ^ 58 := by
      have hmlt : (sb + 63) % U64 < U64 := Nat.mod_lt _ (by omega)
      have h58 : (2 : Nat) ^ 58 = 288230376151711744 := by norm_num
      omega
    have hr1 : 1 ≤ (if (sb + 63) % U64 / 64 = 0 then 1 else (sb + 63) % U64 / 64) := by
      split_ifs <;> omega
    have hr2 : (if (sb + 63) % U64 / 64 = 0 then 1 else (sb + 63) % U64 / 64) ≤ 2 ^ 63 := by
      have h58 : (2 : Nat) ^ 58 = 288230376151711744 := by norm_num
      have h63 : (2 : Nat) ^ 63 = 9223372036854775808 := by norm_num
      split_ifs <;> omega
    obtain ⟨⟨e, he⟩, hge, hmin⟩ := next_power_of_two_spec hr1 hr2
    refine ⟨⟨by simp; omega, rfl, ?_, ?_, by simp⟩, ?_⟩
    · simp [lbfArray]
    · simp only
      rw [he, lbf_count_bits_pow]
    · simp [lbfArray]

/-- A `bloom_contains` probe loop over an all-zero array answers `false`
at its very first probe. -/
theorem bloomCheckBits_zero_head {n bi : Nat} (rest : List Nat)
    (h : bi >>> 3 < n) :
    bloomCheckBits (List.replicate n 0) (bi :: rest) = some false := by
  have hz : (List.replicate n (0 : Nat))[bi >>> 3]? = some 0 :=
    List.getElem?_replicate_of_lt h
  rw [bloomCheckBits, hz]
  simp [Nat.zero_and]

/-- A freshly initialized (well-formed, all-zero) standard filter answers
`false` for every key. -/
theorem bloom_contains_fresh {f1 : BloomFilter} (hwf : bloomWf f1)
    (hzero : bloomArray f1 = List.replicate f1.byte_length 0)
    (key : List Nat) : bloom_contains f1 key = some false := by
  rw [bloom_contains, bloom_compute_hashes_eq hwf, hwf.arr_some]
  simp only
  obtain ⟨m, hm⟩ : ∃ m, f1.num_hashes = m + 1 :=
    ⟨f1.num_hashes - 1, by have := hwf.k_pos; omega⟩
  rw [hzero]
  unfold bloomProbes
  rw [hm, List.range_succ_eq_map, List.map_cons]
  apply bloomCheckBits_zero_head
  have hp : bloomProbe f1.size_bits (bloomHash1 f1 key) (bloomHash2 f1 key) 0
      < f1.size_bits := bloomProbe_lt hwf.sb_pos _ _ _
  have hbyte := byteIndex_lt hp
  have henough := hwf.bytes_enough
  omega

/-- A freshly initialized (well-formed, all-zero) blocked filter answers
`false` for every key. -/
theorem lbf_contains_fresh {l1 : LightweightBloomFilter} (hwf : lbfWf l1)
    (hzero : lbfArray l1 = List.replicate l1.word_count 0)
    (key : List Nat) : lbf_contains l1 key = some false := by
  have hlt : lbfBlock l1 key < l1.word_count := lbfBlock_lt hwf key
  rw [lbf_contains, hwf.arr_some]
  simp only
  rw [show block_index_from_hash (XXH64 key l1.seed) l1.block_bits l1.word_mask
      = lbfBlock l1 key from rfl]
  have hz : (lbfArray l1)[lbfBlock l1 key]? = some 0 := by
    rw [hzero]
    exact List.getElem?_replicate_of_lt hlt
  rw [hz]
  simp only
  obtain ⟨m, hm⟩ : ∃ m, l1.num_hashes = m + 1 :=
    ⟨l1.num_hashes - 1, by have := hwf.k_pos; omega⟩
  rw [hm]
  simp [lbf_bits, lbf_check, Nat.zero_and]

/-- C10: for every freshly and successfully initialized filter of either
kind, before any insert, `contains` returns `false` for every key: init
guarantees `num_hashes ≥ 1` and all-zero storage, so the first probed bit
is always clear. -/
theorem claim_C10_fresh_filter_contains_false
    (fOld : BloomFilter) (lOld : LightweightBloomFilter)
    (f1 : BloomFilter) (l1 : LightweightBloomFilter)
    (sbB kB s1 s2 sbL kL sd : Nat) (key : List Nat)
    (hb : bloom_init true fOld sbB kB s1 s2 = (true, f1))
    (hl : lbf_init true lOld sbL kL sd = (true, l1)) :
    bloom_contains f1 key = some false ∧ lbf_contains l1 key = some false := by
  obtain ⟨hwb, hzb⟩ := bloom_init_wf hb
  obtain ⟨hwl, hzl⟩ := lbf_init_wf hl
  exact ⟨bloom_contains_fresh hwb hzb key, lbf_contains_fresh hwl hzl key⟩

/-- Witness for C10: concrete 64-bit fresh filters of both kinds answer
`false` for the key "z". -/
theorem claim_C10_fresh_filter_contains_false_witness :
    bloom_contains c1fb [122] = some false ∧ lbf_contains c1fl [122] = some false :=
  claim_C10_fresh_filter_contains_false bloomZero lbfZero c1fb c1fl
    64 2 0 0 64 2 0 [122] (by decide) (by decide)
def c9f : BloomFilter :=
  { size_bits := 13835058055282163712, num_hashes := 8, seed1 := 0, seed2 := 0,
    bit_array := some (List.replicate 1729382256910270464 0),
    byte_length := 1729382256910270464 }

/-- Counterexample to C9 as stated: `h1 + i * h2` is computed in
`uint64_t`, so for the valid filter `c9f` (`size_bits = 3 * 2^62`,
`num_hashes = 8`) and the key "a", at probe step `i = 5` the sum
`h1 + 5 * h2` exceeds 2^64, wraps, and the probed bit position differs
from the exact-integer-arithmetic value `(h1 + i * h2) mod size_bits`
that the claim asserts. -/
theorem claim_C9_counterexample :
    bloomWf c9f ∧
    (5 : Nat) < c9f.num_hashes ∧
    bloom_compute_hashes c9f [97] = some (1009084850, 4123450450581378556) ∧
    bloomProbe c9f.size_bits 1009084850 4123450450581378556 5
      ≠ (1009084850 + 5 * 4123450450581378556) % c9f.size_bits := by
  have harrlen : (bloomArray c9f).length = c9f.byte_length := by
    show (List.replicate 1729382256910270464 (0 : Nat)).length
        = (1729382256910270464 : Nat)
    exact List.length_replicate _ _
  exact ⟨⟨by decide, by decide, rfl, harrlen, by decide⟩,
         by decide, by decide, by decide⟩

/-- C9 (amended): the bit position used by `bloom_add` and
`bloom_contains` at step `i` is `((h1 + i * h2) mod 2^64) mod size_bits`
— the sum wraps in `uint64_t` — and the bit at exactly that position is
set by `insert`; it coincides with the exact-unbounded-arithmetic
position `(h1 + i * h2) mod size_bits` whenever `h1 + i * h2 < 2^64`,
but not in general (see the counterexample). -/
theorem claim_C9_probe_positions (f g : BloomFilter) (item : List Nat)
    (i h1 h2 : Nat) (hwf : bloomWf f) (hi : i < f.num_hashes)
    (hch : bloom_compute_hashes f item = some (h1, h2))
    (hadd : bloom_add f item = some g) :
    bloomProbe f.size_bits h1 h2 i = (h1 + i * h2) % U64 % f.size_bits ∧
    bitGet (bloomArray g) (bloomProbe f.size_bits h1 h2 i) = true ∧
    (h1 + i * h2 < U64 →
      bloomProbe f.size_bits h1 h2 i = (h1 + i * h2) % f.size_bits) := by
  have hch2 := bloom_compute_hashes_eq hwf item
  rw [hch] at hch2
  injection hch2 with hpair
  injection hpair with hh1 hh2
  subst hh1
  subst hh2
  refine ⟨rfl, ?_, ?_⟩
  · obtain ⟨_, _, hmarks⟩ := bloom_add_spec hwf hadd
    exact hmarks _ (List.mem_map.mpr ⟨i, List.mem_range.mpr hi, rfl⟩)
  · intro hlt
    unfold bloomProbe
    rw [Nat.mod_eq_of_lt hlt]

def c9g : BloomFilter :=
  { c1fb with bit_array := some [0, 0, 0, 0, 0, 64, 4, 0] }

/-- Witness for the amended C9: on the concrete 64-bit filter, inserting
"a" sets the step-1 probe bit, and since `h1 + 1 * h2 < 2^64` the probe
position agrees with the exact-arithmetic formula. -/
theorem claim_C9_probe_positions_witness :
    bloomProbe c1fb.size_bits 1009084850 60 1
      = (1009084850 + 1 * 60) % U64 % c1fb.size_bits ∧
    bitGet (bloomArray c9g) (bloomProbe c1fb.size_bits 1009084850 60 1) = true ∧
    bloomProbe c1fb.size_bits 1009084850 60 1
      = (1009084850 + 1 * 60) % c1fb.size_bits := by
  obtain ⟨hf, hbit, hexact⟩ := claim_C9_probe_positions c1fb c9g [97] 1
    1009084850 60
    ⟨by decide, by decide, rfl, by decide, by decide⟩
    (by decide) (by decide) (by decide)
  exact ⟨hf, hbit, hexact (by decide)⟩
